import Mathlib

/-!
Verification of the random-vector/sampling utilities of QuantEcon.py-wasm
(`quantecon_wasm/random/utilities.py`): `probvec`, `sample_without_replacement`
and `draw`, embedded shallowly over rationals.  The pseudorandom source is
modelled as an infinite stream of rationals together with a cursor; drawing
`c` uniforms reads `c` consecutive stream values and advances the cursor, which
lets us reason about exactly how many draws each operation consumes.
-/

namespace QuantEconWasm

/-- State of the random source: an infinite stream of values together with the
position of the next value to be produced.  `random(size=c)` reads the next `c`
values and advances the position. -/
structure RNGState where
  u : ℕ → ℚ
  pos : ℕ

/-- The stream only produces values in `[0, 1)`, as the uniform sampler of the
random source does. -/
def UniformStream (st : RNGState) : Prop := ∀ i, 0 ≤ st.u i ∧ st.u i < 1

/-- Draw `count` uniforms from the source: the values at positions
`pos, pos+1, ..., pos+count-1`, with the cursor advanced by `count`. -/
def rand (st : RNGState) (count : ℕ) : List ℚ × RNGState :=
  ((List.range count).map fun i => st.u (st.pos + i), ⟨st.u, st.pos + count⟩)

/-- Reshape a flat list into `m` consecutive rows of width `w` (row-major), as
numpy lays out an `(m, w)` array drawn in one call. -/
def chunk (w : ℕ) : ℕ → List ℚ → List (List ℚ)
  | 0, _ => []
  | m + 1, xs => xs.take w :: chunk w m (xs.drop w)

/-- Successive gaps of a sorted tail after `prev`, closed off with the
remaining mass `1 - last`: the loop
`out[i] = r[i] - r[i-1]; out[n] = 1 - r[n-1]` of `_probvec`. -/
def gapsAux (prev : ℚ) : List ℚ → List ℚ
  | [] => [1 - prev]
  | x :: xs => (x - prev) :: gapsAux x xs

/-- The row transform of `_probvec`: sort the `k-1` uniforms, output the first
sorted value, the successive gaps, and `1` minus the last sorted value.  On an
empty row the Python code indexes out of bounds, so the empty case is `none`. -/
def _probvec (r : List ℚ) : Option (List ℚ) :=
  match List.insertionSort (· ≤ ·) r with
  | [] => none
  | x :: xs => some (x :: gapsAux x xs)

/-- Core of `probvec` once the random state is normalized: `k = 1` returns the
all-ones `m×1` matrix without touching the source; otherwise it draws an
`m×(k-1)` batch of uniforms and applies the row transform to each row. -/
def probvec_rng (m k : ℕ) (st : RNGState) : Option (List (List ℚ)) × RNGState :=
  if k = 1 then (some (List.replicate m (List.replicate k 1)), st)
  else
    ((chunk (k - 1) m (rand st (m * (k - 1))).1).mapM _probvec,
     (rand st (m * (k - 1))).2)

/-- Modelled from the spec: the repository imports a seed-to-generator
facility (`check_random_state`) from a module absent from the sources.  Per the
spec the random source is constructible from an integer seed and is a
deterministic function of that seed; the concrete values are unspecified
beyond lying in `[0, 1)`.  We model the seeded stream by a concrete
congruential stand-in producing rationals in `[0, 1)`. -/
def seedStream (s : ℤ) : ℕ → ℚ := fun i =>
  (((s.natAbs + i + 1) * 48271 % 65537 : ℕ) : ℚ) / 65537

/-- The `random_state` argument of the public API: absent, an integer seed, an
existing generator, or a value of a wrong type. -/
inductive RandomStateArg where
  | noArg : RandomStateArg
  | seed (s : ℤ) : RandomStateArg
  | gen (st : RNGState) : RandomStateArg
  | malformed (descr : String) : RandomStateArg

/-- Modelled from the spec: `check_random_state` is imported from a module
absent from the sources.  Per the spec it accepts None, an integer seed, or a
generator handle (pass-through), and rejects other types with an
`InvalidArgument` error.  The unseeded branch is modelled with an arbitrary
fixed stream (its values are unspecified by the spec). -/
def check_random_state : RandomStateArg → Except String RNGState
  | RandomStateArg.noArg => Except.ok ⟨seedStream 0, 0⟩
  | RandomStateArg.seed s => Except.ok ⟨seedStream s, 0⟩
  | RandomStateArg.gen st => Except.ok st
  | RandomStateArg.malformed d => Except.error ("random_state is not a valid seed or generator: " ++ d)

/-- Public `probvec(m, k, random_state)`: the `k = 1` branch returns the
all-ones matrix before `random_state` is normalized; otherwise the state is
normalized and the core runs. -/
def probvec (m k : ℕ) (random_state : RandomStateArg) :
    Except String (Option (List (List ℚ))) :=
  if k = 1 then Except.ok (some (List.replicate m (List.replicate k 1)))
  else
    match check_random_state random_state with
    | Except.error e => Except.error e
    | Except.ok st => Except.ok (probvec_rng m k st).1

/-- The selection loop of `_sample_without_replacement_single`: at step `j`
pick `idx = floor(r[j] * (n - j))`, output `pool[idx]`, and overwrite
`pool[idx]` with `pool[n-j-1]`, the last element of the still-active region. -/
def sampleAux (n : ℕ) : ℕ → List ℚ → List ℕ → List ℕ
  | _, [], _ => []
  | j, r :: rs, pool =>
    let idx := (⌊r * ((n : ℚ) - (j : ℚ))⌋).toNat
    pool.getD idx 0 :: sampleAux n (j + 1) rs (pool.set idx (pool.getD (n - j - 1) 0))

/-- One trial of sampling without replacement: run the selection loop on the
pool `arange(n)` with one uniform per requested element. -/
def _sample_without_replacement_single (n : ℕ) (r : List ℚ) : List ℕ :=
  sampleAux n 0 r (List.range n)

/-- Result of `sample_without_replacement`: a flat sequence when `num_trials`
is None, a sequence of per-trial sequences otherwise. -/
inductive SampleResult where
  | single (xs : List ℕ) : SampleResult
  | multi (xss : List (List ℕ)) : SampleResult
deriving DecidableEq

/-- Core of `sample_without_replacement(n, k, num_trials)` over a normalized
random state: validate `n > 0` and `k ≤ n` before touching the source, then draw a
`(k,)` or `(num_trials, k)` uniform batch and run one trial per row. -/
def sample_without_replacement (n : ℤ) (k : ℕ) (num_trials : Option ℕ)
    (st : RNGState) : Except String SampleResult × RNGState :=
  if n ≤ 0 then (Except.error "n must be greater than 0", st)
  else if (k : ℤ) > n then (Except.error "k must be smaller than or equal to n", st)
  else
    match num_trials with
    | none =>
      (Except.ok (SampleResult.single (_sample_without_replacement_single n.toNat (rand st k).1)),
       (rand st k).2)
    | some t =>
      (Except.ok (SampleResult.multi
        ((chunk k t (rand st (t * k)).1).map (_sample_without_replacement_single n.toNat))),
       (rand st (t * k)).2)

/-- Public `sample_without_replacement` with a raw `random_state` argument:
the precondition checks run before `check_random_state`, as in the source. -/
def sample_without_replacement_api (n : ℤ) (k : ℕ) (num_trials : Option ℕ)
    (random_state : RandomStateArg) : Except String SampleResult :=
  if n ≤ 0 then Except.error "n must be greater than 0"
  else if (k : ℤ) > n then Except.error "k must be smaller than or equal to n"
  else
    match check_random_state random_state with
    | Except.error e => Except.error e
    | Except.ok st => (sample_without_replacement n k num_trials st).1

/-- Modelled from the spec: the ordered search primitive `searchsorted` is
imported from a module absent from the sources.  Per the spec it returns the
leftmost index `i` such that `cdf[i] > v`, i.e. the insertion index of `v`
into the non-decreasing sequence `cdf` (the length of `cdf` when no entry
exceeds `v`). -/
def searchsorted (cdf : List ℚ) (v : ℚ) : ℕ :=
  match cdf with
  | [] => 0
  | x :: xs => if v < x then 0 else searchsorted xs v + 1

/-- Operation `draw(cdf, size)`: with an integer `size` it draws `size` uniforms from the
ambient (global, unseeded) stream `u` and returns the insertion index of each;
with `size` omitted it draws one uniform and returns a single scalar index. -/
def draw (cdf : List ℚ) (size : Option ℕ) (u : ℕ → ℚ) : ℕ ⊕ List ℕ :=
  match size with
  | some s => Sum.inr ((List.range s).map fun i => searchsorted cdf (u i))
  | none => Sum.inl (searchsorted cdf (u 0))

theorem searchsorted_le_length (cdf : List ℚ) (v : ℚ) : searchsorted cdf v ≤ cdf.length := by
  induction cdf with
  | nil => simp [searchsorted]
  | cons x xs ih =>
    simp only [searchsorted, List.length_cons]
    split
    · exact Nat.zero_le _
    · exact Nat.succ_le_succ ih

theorem searchsorted_gt (cdf : List ℚ) (v : ℚ)
    (h : searchsorted cdf v < cdf.length) : v < cdf.getD (searchsorted cdf v) 0 := by
  induction cdf with
  | nil => simp [searchsorted] at h
  | cons x xs ih =>
    by_cases hx : v < x
    · simp only [searchsorted, if_pos hx, List.getD_cons_zero]
      exact hx
    · have hs : searchsorted (x :: xs) v = searchsorted xs v + 1 := by
        simp [searchsorted, hx]
      rw [hs] at h ⊢
      simpa using ih (by simp at h; omega)

theorem searchsorted_min (cdf : List ℚ) (v : ℚ) (j : ℕ)
    (hj : j < searchsorted cdf v) : cdf.getD j 0 ≤ v := by
  induction cdf generalizing j with
  | nil => simp [searchsorted] at hj
  | cons x xs ih =>
    by_cases hx : v < x
    · simp [searchsorted, hx] at hj
    · have hs : searchsorted (x :: xs) v = searchsorted xs v + 1 := by
        simp [searchsorted, hx]
      rw [hs] at hj
      match j with
      | 0 => simpa using le_of_not_lt hx
      | j + 1 => simpa using ih j (Nat.lt_of_succ_lt_succ hj)

end QuantEconWasm

namespace QuantEconWasm

/-- A convenient concrete uniform stream used by witnesses. -/
def halfStream : RNGState := ⟨fun _ => 1 / 2, 0⟩

theorem halfStream_uniform : UniformStream halfStream := by
  intro i
  constructor <;> norm_num [halfStream]

theorem sampleAux_length (n : ℕ) (rs : List ℚ) : ∀ (j : ℕ) (pool : List ℕ),
    (sampleAux n j rs pool).length = rs.length := by
  induction rs with
  | nil => intro j pool; rfl
  | cons r rs ih => intro j pool; simp [sampleAux, ih]

theorem sampleAux_cons (n j : ℕ) (r : ℚ) (rs : List ℚ) (pool : List ℕ) :
    sampleAux n j (r :: rs) pool
      = pool.getD (⌊r * ((n : ℚ) - (j : ℚ))⌋).toNat 0
        :: sampleAux n (j + 1) rs
             (pool.set (⌊r * ((n : ℚ) - (j : ℚ))⌋).toNat (pool.getD (n - j - 1) 0)) := rfl

theorem floor_mul_lt (r : ℚ) (c : ℕ) (h0 : 0 ≤ r) (h1 : r < 1) (hc : 1 ≤ c) :
    (⌊r * (c : ℚ)⌋).toNat < c := by
  have hcq : (0 : ℚ) < (c : ℚ) := by exact_mod_cast hc
  have hlt : r * (c : ℚ) < (c : ℚ) := by
    have := mul_lt_mul_of_pos_right h1 hcq
    simpa using this
  have hfl : ⌊r * (c : ℚ)⌋ < (c : ℤ) := by
    rw [Int.floor_lt]
    exact_mod_cast hlt
  have hfnn : 0 ≤ ⌊r * (c : ℚ)⌋ := Int.floor_nonneg.mpr (by positivity)
  omega

theorem head_set_perm {α : Type} (u : List α) : ∀ (idx : ℕ) (hidx : idx < u.length) (w : α),
    (u.get ⟨idx, hidx⟩ :: u.set idx w).Perm (u ++ [w]) := by
  induction u with
  | nil => intro idx hidx w; simp at hidx
  | cons a u ih =>
    intro idx hidx w
    match idx with
    | 0 =>
      show (a :: w :: u).Perm (a :: (u ++ [w]))
      exact List.Perm.cons a (List.perm_append_singleton w u).symm
    | i + 1 =>
      have hi : i < u.length := by simp at hidx; omega
      show (u.get ⟨i, hi⟩ :: a :: u.set i w).Perm (a :: (u ++ [w]))
      exact (List.Perm.swap a _ _).trans (List.Perm.cons a (ih i hi w))

theorem select_swap_perm (pool : List ℕ) (m idx : ℕ) (hm : m ≤ pool.length)
    (hm1 : 1 ≤ m) (hidx : idx < m) :
    (pool.getD idx 0 :: ((pool.set idx (pool.getD (m - 1) 0)).take (m - 1))).Perm
      (pool.take m) := by
  have hmlt : m - 1 < pool.length := by omega
  have hidxlt : idx < pool.length := by omega
  have hw : pool.getD (m - 1) 0 = pool.get ⟨m - 1, hmlt⟩ := by
    simp [List.getD_eq_getElem?_getD, List.getElem?_eq_getElem hmlt]
  have hv : pool.getD idx 0 = pool.get ⟨idx, hidxlt⟩ := by
    simp [List.getD_eq_getElem?_getD, List.getElem?_eq_getElem hidxlt]
  have htake : pool.take m = pool.take (m - 1) ++ [pool.get ⟨m - 1, hmlt⟩] := by
    have hm' : m = (m - 1) + 1 := by omega
    conv_lhs => rw [hm']
    rw [List.take_succ]
    simp [List.getElem?_eq_getElem hmlt]
  have hulen : (pool.take (m - 1)).length = m - 1 := by
    simp [List.length_take]
    omega
  rcases Nat.lt_or_ge idx (m - 1) with hlt | hge
  · have hidxu : idx < (pool.take (m - 1)).length := by omega
    have hsetu : (pool.set idx (pool.getD (m - 1) 0)).take (m - 1)
        = (pool.take (m - 1)).set idx (pool.getD (m - 1) 0) := List.set_take
    have hgetu : (pool.take (m - 1)).get ⟨idx, hidxu⟩ = pool.get ⟨idx, hidxlt⟩ := by
      simp
    rw [htake, hsetu, hv, ← hgetu, hw]
    exact head_set_perm (pool.take (m - 1)) idx hidxu _
  · have heq : idx = m - 1 := by omega
    have hsetu : (pool.set idx (pool.getD (m - 1) 0)).take (m - 1)
        = pool.take (m - 1) := by
      rw [List.set_take]
      exact List.set_eq_of_length_le (by rw [hulen]; omega)
    have hgeq : pool.get ⟨idx, hidxlt⟩ = pool.get ⟨m - 1, hmlt⟩ := by
      congr 1
      exact Fin.ext heq
    rw [htake, hsetu, hv, hgeq]
    exact (List.perm_append_singleton _ _).symm

theorem sampleAux_append_perm (n : ℕ) (rs : List ℚ) : ∀ (j : ℕ) (pool : List ℕ),
    pool.length = n → j + rs.length ≤ n → (∀ x ∈ rs, 0 ≤ x ∧ x < 1) →
    ∃ rest, (sampleAux n j rs pool ++ rest).Perm (pool.take (n - j))
      ∧ rest.length = (n - j) - rs.length := by
  induction rs with
  | nil =>
    intro j pool hpl hjn _
    refine ⟨pool.take (n - j), by simp [sampleAux], ?_⟩
    simp [List.length_take]
    omega
  | cons r rs ih =>
    intro j pool hpl hjn hmem
    have hr : 0 ≤ r ∧ r < 1 := hmem r (List.mem_cons_self r rs)
    have hjlt : j < n := by simp at hjn; omega
    have hcast : ((n : ℚ) - (j : ℚ)) = ((n - j : ℕ) : ℚ) := by
      rw [Nat.cast_sub (le_of_lt hjlt)]
    have hidx : (⌊r * ((n : ℚ) - (j : ℚ))⌋).toNat < n - j := by
      rw [hcast]
      exact floor_mul_lt r (n - j) hr.1 hr.2 (by omega)
    obtain ⟨rest, hperm, hlen⟩ := ih (j + 1)
      (pool.set (⌊r * ((n : ℚ) - (j : ℚ))⌋).toNat (pool.getD (n - j - 1) 0))
      (by simp [hpl]) (by simp at hjn ⊢; omega)
      (fun x hx => hmem x (List.mem_cons_of_mem r hx))
    refine ⟨rest, ?_, ?_⟩
    · rw [sampleAux_cons, List.cons_append]
      have hn1 : n - (j + 1) = n - j - 1 := by omega
      rw [hn1] at hperm
      exact (hperm.cons _).trans
        (select_swap_perm pool (n - j) _ (by omega) (by omega) hidx)
    · rw [hlen]
      simp
      omega

/-- One trial of sampling without replacement with `k` uniforms in `[0,1)`
over a pool of size `n`, `k ≤ n`, returns exactly `k` mutually distinct
integers below `n`; with `k = n` the result is a permutation of
`{0, ..., n-1}`. -/
theorem sampleSingle_spec (n k : ℕ) (r : List ℚ) (hlen : r.length = k)
    (hkn : k ≤ n) (hr : ∀ x ∈ r, 0 ≤ x ∧ x < 1) :
    (_sample_without_replacement_single n r).length = k
    ∧ (_sample_without_replacement_single n r).Nodup
    ∧ (∀ v ∈ _sample_without_replacement_single n r, v < n)
    ∧ (k = n → (_sample_without_replacement_single n r).Perm (List.range n)) := by
  obtain ⟨rest, hperm, hrest⟩ := sampleAux_append_perm n r 0 (List.range n)
    (List.length_range n) (by simp [hlen, hkn]) hr
  have htake : (List.range n).take (n - 0) = List.range n := by
    apply List.take_of_length_le
    simp
  rw [htake] at hperm
  have hnd : (sampleAux n 0 r (List.range n) ++ rest).Nodup :=
    hperm.nodup_iff.mpr (List.nodup_range n)
  refine ⟨?_, ?_, ?_, ?_⟩
  · rw [_sample_without_replacement_single, sampleAux_length, hlen]
  · exact List.Nodup.of_append_left hnd
  · intro v hv
    have hvmem : v ∈ List.range n := hperm.mem_iff.mp (List.mem_append_left rest hv)
    simpa using hvmem
  · intro hkeq
    have hr0 : rest.length = 0 := by rw [hrest, hlen, hkeq]; omega
    have hrnil : rest = [] := List.length_eq_zero.mp hr0
    rw [hrnil, List.append_nil] at hperm
    exact hperm

theorem chunk_length (w : ℕ) : ∀ (m : ℕ) (xs : List ℚ), (chunk w m xs).length = m := by
  intro m
  induction m with
  | zero => intro xs; rfl
  | succ m ih => intro xs; simp [chunk, ih]

theorem chunk_row_length (w : ℕ) : ∀ (m : ℕ) (xs : List ℚ), m * w ≤ xs.length →
    ∀ row ∈ chunk w m xs, row.length = w := by
  intro m
  induction m with
  | zero => intro xs _ row hrow; simp [chunk] at hrow
  | succ m ih =>
    intro xs hle row hrow
    have hwxs : w ≤ xs.length := by
      have : m * w + w ≤ xs.length := by simpa [Nat.succ_mul] using hle
      omega
    rcases List.mem_cons.mp hrow with rfl | hrow2
    · simp [List.length_take]
      omega
    · apply ih (xs.drop w) _ row hrow2
      simp only [List.length_drop]
      have : (m + 1) * w = m * w + w := by ring
      omega

theorem chunk_mem (w : ℕ) : ∀ (m : ℕ) (xs : List ℚ), ∀ row ∈ chunk w m xs, ∀ y ∈ row, y ∈ xs := by
  intro m
  induction m with
  | zero => intro xs row hrow; simp [chunk] at hrow
  | succ m ih =>
    intro xs row hrow y hy
    rcases List.mem_cons.mp hrow with rfl | hrow2
    · exact List.take_subset w xs hy
    · exact List.drop_subset w xs (ih (xs.drop w) row hrow2 y hy)

theorem rand_length (st : RNGState) (c : ℕ) : (rand st c).1.length = c := by
  simp [rand]

theorem rand_mem_uniform (st : RNGState) (hu : UniformStream st) (c : ℕ) :
    ∀ x ∈ (rand st c).1, 0 ≤ x ∧ x < 1 := by
  intro x hx
  simp only [rand, List.mem_map, List.mem_range] at hx
  obtain ⟨i, _, rfl⟩ := hx
  exact hu _

theorem gapsAux_sum (s : List ℚ) : ∀ prev, (gapsAux prev s).sum = 1 - prev := by
  induction s with
  | nil => intro prev; simp [gapsAux]
  | cons x xs ih =>
    intro prev
    simp only [gapsAux, List.sum_cons, ih x]
    ring

theorem gapsAux_length (s : List ℚ) : ∀ prev, (gapsAux prev s).length = s.length + 1 := by
  induction s with
  | nil => intro prev; rfl
  | cons x xs ih => intro prev; simp [gapsAux, ih]

theorem gapsAux_nonneg (s : List ℚ) : ∀ prev, List.Sorted (· ≤ ·) (prev :: s) →
    (∀ x ∈ prev :: s, x ≤ 1) → ∀ y ∈ gapsAux prev s, 0 ≤ y := by
  induction s with
  | nil =>
    intro prev _ hle y hy
    simp only [gapsAux, List.mem_singleton] at hy
    subst hy
    have := hle prev (by simp)
    linarith
  | cons x xs ih =>
    intro prev hsort hle y hy
    simp only [gapsAux, List.mem_cons] at hy
    rcases hy with rfl | hy2
    · have hpx : prev ≤ x := (List.sorted_cons.mp hsort).1 x (by simp)
      linarith
    · exact ih x (List.sorted_cons.mp hsort).2
        (fun z hz => hle z (List.mem_cons_of_mem prev hz)) y hy2

theorem _probvec_spec (r : List ℚ) (hne : r ≠ []) (h0 : ∀ x ∈ r, 0 ≤ x)
    (h1 : ∀ x ∈ r, x < 1) :
    ∃ out, _probvec r = some out ∧ out.length = r.length + 1
      ∧ (∀ x ∈ out, 0 ≤ x) ∧ out.sum = 1 := by
  have hperm := List.perm_insertionSort (· ≤ ·) r
  have hsort := List.sorted_insertionSort (· ≤ ·) r
  cases hs : List.insertionSort (· ≤ ·) r with
  | nil =>
    exfalso
    apply hne
    apply List.length_eq_zero.mp
    rw [← hperm.length_eq, hs]
    rfl
  | cons x xs =>
    rw [hs] at hperm hsort
    have hmem : ∀ y ∈ x :: xs, y ∈ r := fun y hy => hperm.mem_iff.mp hy
    refine ⟨x :: gapsAux x xs, ?_, ?_, ?_, ?_⟩
    · simp only [_probvec, hs]
    · have : (x :: xs).length = r.length := hperm.length_eq
      simp only [List.length_cons, gapsAux_length]
      simp only [List.length_cons] at this
      omega
    · intro y hy
      rcases List.mem_cons.mp hy with rfl | hy2
      · exact h0 y (hmem y (by simp))
      · exact gapsAux_nonneg xs x hsort
          (fun z hz => le_of_lt (h1 z (hmem z hz))) y hy2
    · simp only [List.sum_cons, gapsAux_sum]
      ring

theorem mapM_option_spec {α β : Type} (f : α → Option β) (P : β → Prop) :
    ∀ (L : List α), (∀ a ∈ L, ∃ b, f a = some b ∧ P b) →
    ∃ M, L.mapM f = some M ∧ M.length = L.length ∧ ∀ b ∈ M, P b := by
  intro L
  induction L with
  | nil => exact fun _ => ⟨[], rfl, by simp, by simp⟩
  | cons a L ih =>
    intro h
    obtain ⟨b, hb, hPb⟩ := h a (List.mem_cons_self a L)
    obtain ⟨M, hM, hlen, hP⟩ := ih (fun x hx => h x (List.mem_cons_of_mem a hx))
    refine ⟨b :: M, ?_, by simp [hlen], ?_⟩
    · rw [List.mapM_cons, hb, hM]
      rfl
    · intro c hc
      rcases List.mem_cons.mp hc with rfl | hc2
      · exact hPb
      · exact hP c hc2

/-- C1: for `m ≥ 0`, `k ≥ 1` and a random source producing values in `[0,1)`,
`probvec` returns an `m×k` matrix whose entries are all non-negative and whose
rows each sum exactly to 1. -/
theorem probvec_spec (m k : ℕ) (st : RNGState) (hu : UniformStream st) (hk : 1 ≤ k) :
    ∃ mat, (probvec_rng m k st).1 = some mat ∧ mat.length = m
      ∧ ∀ row ∈ mat, row.length = k ∧ (∀ x ∈ row, 0 ≤ x) ∧ row.sum = 1 := by
  by_cases h1 : k = 1
  · subst h1
    refine ⟨List.replicate m (List.replicate 1 1), rfl, by simp, ?_⟩
    intro row hrow
    rw [List.eq_of_mem_replicate hrow]
    exact ⟨by simp, by simp, by simp⟩
  · simp only [probvec_rng, if_neg h1]
    have hrows : ∀ row ∈ chunk (k - 1) m (rand st (m * (k - 1))).1,
        ∃ out, _probvec row = some out
          ∧ (out.length = k ∧ (∀ x ∈ out, 0 ≤ x) ∧ out.sum = 1) := by
      intro row hrow
      have hrl : row.length = k - 1 :=
        chunk_row_length (k - 1) m _ (by simp [rand_length]) row hrow
      have hrm : ∀ x ∈ row, 0 ≤ x ∧ x < 1 := fun x hx =>
        rand_mem_uniform st hu _ x (chunk_mem (k - 1) m _ row hrow x hx)
      have hne : row ≠ [] := by
        intro hnil
        rw [hnil] at hrl
        simp at hrl
        omega
      obtain ⟨out, hout, holen, ho0, hosum⟩ := _probvec_spec row hne
        (fun x hx => (hrm x hx).1) (fun x hx => (hrm x hx).2)
      exact ⟨out, hout, ⟨by rw [holen, hrl]; omega, ho0, hosum⟩⟩
    obtain ⟨M, hM, hlen, hP⟩ := mapM_option_spec _probvec
      (fun out => out.length = k ∧ (∀ x ∈ out, 0 ≤ x) ∧ out.sum = 1) _ hrows
    refine ⟨M, hM, ?_, hP⟩
    rw [hlen, chunk_length]

theorem probvec_spec_witness :
    ∃ mat, (probvec_rng 2 3 halfStream).1 = some mat ∧ mat.length = 2
      ∧ ∀ row ∈ mat, row.length = 3 ∧ (∀ x ∈ row, 0 ≤ x) ∧ row.sum = 1 :=
  probvec_spec 2 3 halfStream halfStream_uniform (by norm_num)

/-- C5: with `n > 0`, `k ≤ n` and `t` trials, `sample_without_replacement`
returns `t` sequences in trial-major order, the `i`-th produced by running the
per-trial algorithm on the `i`-th row of the `(t, k)` uniform batch, and each
consisting of `k` mutually distinct integers in `[0, n)`. -/
theorem swr_trials_spec (n : ℤ) (k t : ℕ) (st : RNGState) (hn : 0 < n)
    (hkn : (k : ℤ) ≤ n) (hu : UniformStream st) :
    ∃ L, (sample_without_replacement n k (some t) st).1
        = Except.ok (SampleResult.multi L)
      ∧ L.length = t
      ∧ L = (chunk k t (rand st (t * k)).1).map
          (_sample_without_replacement_single n.toNat)
      ∧ ∀ row ∈ L, row.length = k ∧ row.Nodup ∧ ∀ v ∈ row, (v : ℤ) < n := by
  have hn0 : ¬ n ≤ 0 := not_le.mpr hn
  have hkn' : ¬ (k : ℤ) > n := not_lt.mpr hkn
  refine ⟨(chunk k t (rand st (t * k)).1).map (_sample_without_replacement_single n.toNat),
    ?_, ?_, rfl, ?_⟩
  · simp [sample_without_replacement, hn0, hkn']
  · rw [List.length_map, chunk_length]
  · intro row hrow
    simp only [List.mem_map] at hrow
    obtain ⟨crow, hcrow, rfl⟩ := hrow
    have hclen : crow.length = k :=
      chunk_row_length k t _ (by simp [rand_length]) crow hcrow
    have hcmem : ∀ x ∈ crow, 0 ≤ x ∧ x < 1 := fun x hx =>
      rand_mem_uniform st hu _ x (chunk_mem k t _ crow hcrow x hx)
    have hknt : k ≤ n.toNat := by omega
    obtain ⟨hl, hnd, hlt, _⟩ := sampleSingle_spec n.toNat k crow hclen hknt hcmem
    refine ⟨hl, hnd, fun v hv => ?_⟩
    have := hlt v hv
    omega

theorem swr_trials_spec_witness :
    ∃ L, (sample_without_replacement 5 3 (some 2) halfStream).1
        = Except.ok (SampleResult.multi L)
      ∧ L.length = 2
      ∧ L = (chunk 3 2 (rand halfStream (2 * 3)).1).map
          (_sample_without_replacement_single (5 : ℤ).toNat)
      ∧ ∀ row ∈ L, row.length = 3 ∧ row.Nodup ∧ ∀ v ∈ row, (v : ℤ) < 5 :=
  swr_trials_spec 5 3 2 halfStream (by norm_num) (by norm_num) halfStream_uniform

/-- C2: with `n > 0`, `0 ≤ k ≤ n` and `k` uniforms in `[0,1)` from the random
source, `sample_without_replacement(n, k)` returns a flat sequence of exactly
`k` mutually distinct integers, each in `[0, n)`; when `k = n` the result is a
permutation of `{0, ..., n-1}`, every value appearing exactly once. -/
theorem swr_single_distinct (n : ℤ) (k : ℕ) (st : RNGState) (hn : 0 < n)
    (hkn : (k : ℤ) ≤ n) (hu : UniformStream st) :
    ∃ out, (sample_without_replacement n k none st).1
        = Except.ok (SampleResult.single out)
      ∧ out.length = k
      ∧ out.Nodup
      ∧ (∀ v ∈ out, (v : ℤ) < n)
      ∧ ((k : ℤ) = n → out.Perm (List.range n.toNat)) := by
  have hn0 : ¬ n ≤ 0 := not_le.mpr hn
  have hkn' : ¬ (k : ℤ) > n := not_lt.mpr hkn
  have hknt : k ≤ n.toNat := by omega
  obtain ⟨hl, hnd, hlt, hperm⟩ := sampleSingle_spec n.toNat k (rand st k).1
    (rand_length st k) hknt (rand_mem_uniform st hu k)
  refine ⟨_sample_without_replacement_single n.toNat (rand st k).1, ?_, hl, hnd,
    fun v hv => ?_, fun hkeq => hperm (by omega)⟩
  · simp [sample_without_replacement, hn0, hkn']
  · have := hlt v hv
    omega

theorem swr_single_distinct_witness :
    ∃ out, (sample_without_replacement 5 5 none halfStream).1
        = Except.ok (SampleResult.single out)
      ∧ out.length = 5
      ∧ out.Nodup
      ∧ (∀ v ∈ out, (v : ℤ) < 5)
      ∧ (((5 : ℕ) : ℤ) = 5 → out.Perm (List.range (5 : ℤ).toNat)) :=
  swr_single_distinct 5 5 halfStream (by norm_num) (by norm_num) halfStream_uniform

/-- C9: `draw(cdf, size=0)` succeeds and returns the empty sequence, for every
cdf, without consulting the random stream. -/
theorem draw_size_zero (cdf : List ℚ) (u : ℕ → ℚ) :
    draw cdf (some 0) u = Sum.inr [] := rfl

/-- C10: with `k = 1`, `probvec` returns the all-ones `m×1` matrix before the
`random_state` argument is normalized, so even a malformed `random_state` (one
that `check_random_state` rejects with an error) does not make it raise. -/
theorem probvec_k_one_skips_random_state (m : ℕ) (rs : RandomStateArg) (d : String) :
    probvec m 1 rs = Except.ok (some (List.replicate m (List.replicate 1 1)))
    ∧ ∃ e, check_random_state (RandomStateArg.malformed d) = Except.error e :=
  ⟨rfl, ⟨_, rfl⟩⟩

/-- C6: `probvec(m, 1)` returns the all-ones `m×1` matrix and leaves the random
state untouched (zero draws consumed); for `k ≥ 2` the call advances the
stream position by exactly `m·(k-1)`, leaving the stream itself unchanged. -/
theorem probvec_draw_count (m k : ℕ) (st : RNGState) (hk : 2 ≤ k) :
    probvec_rng m 1 st = (some (List.replicate m (List.replicate 1 1)), st)
    ∧ (probvec_rng m k st).2.pos = st.pos + m * (k - 1)
    ∧ (probvec_rng m k st).2.u = st.u := by
  have hne : ¬ k = 1 := by omega
  refine ⟨rfl, ?_, ?_⟩ <;>
    · simp only [probvec_rng, rand]
      rw [if_neg hne]

theorem probvec_draw_count_witness :
    probvec_rng 2 1 halfStream = (some (List.replicate 2 (List.replicate 1 1)), halfStream)
    ∧ (probvec_rng 2 3 halfStream).2.pos = halfStream.pos + 2 * (3 - 1)
    ∧ (probvec_rng 2 3 halfStream).2.u = halfStream.u :=
  probvec_draw_count 2 3 halfStream (by norm_num)

/-- C8: when `sample_without_replacement` rejects its arguments (`n ≤ 0` or
`k > n`), it errors before consuming any draw: the random state it returns is
exactly the input state, and no incomplete result is produced. -/
theorem swr_error_keeps_state (n : ℤ) (k : ℕ) (nt : Option ℕ) (st : RNGState)
    (h : n ≤ 0 ∨ (k : ℤ) > n) :
    (∃ e, (sample_without_replacement n k nt st).1 = Except.error e)
    ∧ (sample_without_replacement n k nt st).2 = st := by
  unfold sample_without_replacement
  rcases h with h | h
  · simp [h]
  · rcases le_or_lt n 0 with h0 | h0
    · simp [h0]
    · simp [not_le.mpr h0, h]

theorem swr_error_keeps_state_witness :
    ((∃ e, (sample_without_replacement 0 1 none halfStream).1 = Except.error e)
      ∧ (sample_without_replacement 0 1 none halfStream).2 = halfStream)
    ∧ ((∃ e, (sample_without_replacement 5 6 (some 2) halfStream).1 = Except.error e)
      ∧ (sample_without_replacement 5 6 (some 2) halfStream).2 = halfStream) :=
  ⟨swr_error_keeps_state 0 1 none halfStream (Or.inl (by norm_num)),
   swr_error_keeps_state 5 6 (some 2) halfStream (Or.inr (by norm_num))⟩

/-- C3: `sample_without_replacement` errors exactly when `n ≤ 0` or `k > n`:
with `n ≤ 0` the message is "n must be greater than 0", with `n > 0` and
`k > n` it is "k must be smaller than or equal to n", and otherwise the call
returns a result without raising. -/
theorem swr_raises_iff (n : ℤ) (k : ℕ) (nt : Option ℕ) (st : RNGState) :
    ((∃ e, (sample_without_replacement n k nt st).1 = Except.error e)
      ↔ (n ≤ 0 ∨ (k : ℤ) > n))
    ∧ (n ≤ 0 →
        (sample_without_replacement n k nt st).1 = Except.error "n must be greater than 0")
    ∧ (0 < n → (k : ℤ) > n →
        (sample_without_replacement n k nt st).1
          = Except.error "k must be smaller than or equal to n")
    ∧ (0 < n → (k : ℤ) ≤ n →
        ∃ res, (sample_without_replacement n k nt st).1 = Except.ok res) := by
  unfold sample_without_replacement
  rcases le_or_lt n 0 with h0 | h0
  · simp [h0]
  · rcases le_or_lt (k : ℤ) n with hk | hk
    · rcases nt with _ | t <;>
        simp [not_le.mpr h0, not_lt.mpr hk, rand, not_le_of_lt h0]
    · simp [not_le.mpr h0, hk, not_le_of_lt h0, not_le_of_lt hk]

theorem swr_raises_iff_witness :
    (((∃ e, (sample_without_replacement 5 3 none halfStream).1 = Except.error e)
        ↔ ((5 : ℤ) ≤ 0 ∨ ((3 : ℕ) : ℤ) > 5))
      ∧ ((5 : ℤ) ≤ 0 →
          (sample_without_replacement 5 3 none halfStream).1
            = Except.error "n must be greater than 0")
      ∧ ((0 : ℤ) < 5 → ((3 : ℕ) : ℤ) > 5 →
          (sample_without_replacement 5 3 none halfStream).1
            = Except.error "k must be smaller than or equal to n")
      ∧ ((0 : ℤ) < 5 → ((3 : ℕ) : ℤ) ≤ 5 →
          ∃ res, (sample_without_replacement 5 3 none halfStream).1 = Except.ok res)) :=
  swr_raises_iff 5 3 none halfStream

/-- C7: results are a deterministic function of the integer seed and the
arguments: two separate calls of `probvec` (resp. of
`sample_without_replacement`) with the same seed and identical arguments
return identical results. -/
theorem seeded_calls_reproducible (m k : ℕ) (n : ℤ) (kk : ℕ) (nt : Option ℕ) (s : ℤ)
    (p₁ p₂ : Except String (Option (List (List ℚ))))
    (q₁ q₂ : Except String SampleResult)
    (h₁ : p₁ = probvec m k (RandomStateArg.seed s))
    (h₂ : p₂ = probvec m k (RandomStateArg.seed s))
    (h₃ : q₁ = sample_without_replacement_api n kk nt (RandomStateArg.seed s))
    (h₄ : q₂ = sample_without_replacement_api n kk nt (RandomStateArg.seed s)) :
    p₁ = p₂ ∧ q₁ = q₂ := by
  subst h₁ h₂ h₃ h₄
  exact ⟨rfl, rfl⟩

theorem seeded_calls_reproducible_witness :
    probvec 2 3 (RandomStateArg.seed 1234) = probvec 2 3 (RandomStateArg.seed 1234)
    ∧ sample_without_replacement_api 5 3 none (RandomStateArg.seed 1234)
        = sample_without_replacement_api 5 3 none (RandomStateArg.seed 1234) :=
  seeded_calls_reproducible 2 3 5 3 none 1234 _ _ _ _ rfl rfl rfl rfl

/-- C4: `draw(cdf, size=s)` returns a sequence of exactly `s` indices, the
`i`-th being the insertion index of the `i`-th uniform: the least index `j`
with `cdf[j] > u i` (the length of `cdf` when no entry exceeds it); with
`size` omitted it returns the single insertion index of one uniform as a
scalar. -/
theorem draw_spec (cdf : List ℚ) (s : ℕ) (u : ℕ → ℚ) :
    (∃ out, draw cdf (some s) u = Sum.inr out ∧ out.length = s ∧
      ∀ i, i < s → out.getD i 0 = searchsorted cdf (u i)
        ∧ searchsorted cdf (u i) ≤ cdf.length
        ∧ (searchsorted cdf (u i) < cdf.length →
            u i < cdf.getD (searchsorted cdf (u i)) 0)
        ∧ (∀ j, j < searchsorted cdf (u i) → cdf.getD j 0 ≤ u i))
    ∧ draw cdf none u = Sum.inl (searchsorted cdf (u 0)) := by
  refine ⟨⟨(List.range s).map fun i => searchsorted cdf (u i), rfl, by simp, ?_⟩, rfl⟩
  intro i hi
  refine ⟨?_, searchsorted_le_length cdf (u i),
    fun h => searchsorted_gt cdf (u i) h,
    fun j hj => searchsorted_min cdf (u i) j hj⟩
  simp [List.getD_eq_getElem?_getD, List.getElem?_range, hi]

theorem draw_spec_witness :
    (∃ out, draw [2/5, 1] (some 2) halfStream.u = Sum.inr out ∧ out.length = 2 ∧
      ∀ i, i < 2 → out.getD i 0 = searchsorted [2/5, 1] (halfStream.u i)
        ∧ searchsorted [2/5, 1] (halfStream.u i) ≤ ([2/5, 1] : List ℚ).length
        ∧ (searchsorted [2/5, 1] (halfStream.u i) < ([2/5, 1] : List ℚ).length →
            halfStream.u i < ([2/5, 1] : List ℚ).getD (searchsorted [2/5, 1] (halfStream.u i)) 0)
        ∧ (∀ j, j < searchsorted [2/5, 1] (halfStream.u i) →
            ([2/5, 1] : List ℚ).getD j 0 ≤ halfStream.u i))
    ∧ draw [2/5, 1] none halfStream.u = Sum.inl (searchsorted [2/5, 1] (halfStream.u 0)) :=
  draw_spec [2/5, 1] 2 halfStream.u

end QuantEconWasm
